import Mathlib

/-
Formal model of the delay-discounting scoring pipeline
(analysis/02_score_discounting_data.ipynb) from the Skrynka & Vincent
repository, together with the four discount-function families named in
the accompanying documentation.  The batch driver is embedded as a pure
state-passing program; the external Bayesian sampler (PyMC3) is
abstracted as a deterministic fitting oracle supplying per-model metrics
and mean parameter estimates.
-/

namespace Skrynka

/-- Splitting of a character list on a separator, accumulator style.
Mirrors Python str.split with a single-character separator:
splitting the empty string yields one empty field, and adjacent
separators yield empty fields. -/
def splitAux (sep : Char) : List Char → List Char → List (List Char)
  | [], acc => [acc.reverse]
  | c :: rest, acc =>
    if c = sep then acc.reverse :: splitAux sep rest []
    else splitAux sep rest (c :: acc)

/-- Python's s.split(sep) for a one-character separator, over strings. -/
def splitOnSep (sep : Char) (s : String) : List String :=
  (splitAux sep s.toList []).map (fun cs => ⟨cs⟩)

/-- The tail component of os.path.split: everything after the last '/'. -/
def basename (path : String) : String :=
  (splitOnSep '/' path).getLastD ""

/-- parse_filename from the notebook: split the basename on '-'; a
five-field basename yields the triple (initials, commodity, condition);
any other field count raises ValueError in Python, modelled as none. -/
def parse_filename (fname : String) : Option (String × String × String) :=
  match splitOnSep '-' (basename fname) with
  | [initials, commodity, condition, _date, _time] =>
      some (initials, commodity, condition)
  | _ => none

/-- A cell of an output table: the identifying fields and the model name
are strings; the numeric metrics and parameter estimates carry an
abstract value type V (floats in the notebook). -/
inductive Cell (V : Type) where
  | str : String → Cell V
  | val : V → Cell V
deriving DecidableEq

/-- One row of an output table, as an ordered association list of
column name to cell, matching a one-row pandas DataFrame built from a
Python dict (which preserves insertion order). -/
abbrev Row (V : Type) := List (String × Cell V)

/-- What one call models[m].fit(...) followed by metric extraction
yields: the four metrics stored in the info dict and the
mean_parameters() dict.  The PyMC3 sampling itself is external; the
whole fit is abstracted as a deterministic oracle producing this. -/
structure FitInfo (V : Type) where
  log_loss : V
  AUC : V
  WAIC : V
  roc_auc : V
  mean_parameters : List (String × V)
deriving DecidableEq

/-- A fitting oracle: given a model name and an input filename, the
result of building and fitting that model on the file's data. -/
abbrev FitOracle (V : Type) := String → String → FitInfo V

/-- Python dict.update on ordered association lists: keys already in
the base keep their position but take the updating value; new keys are
appended at the end in the updating dict's order. -/
def dictUpdate {V : Type} (base upd : List (String × Cell V)) :
    List (String × Cell V) :=
  base.map (fun p =>
    (p.1,
     match upd.find? (fun q => q.1 == p.1) with
     | some q => q.2
     | none => p.2)) ++
  upd.filter (fun q => base.all (fun p => p.1 != q.1))

/-- The info dict built for one (file, model) pair in the notebook's
inner loop, merged with the model's mean parameters via info.update. -/
def mkRow {V : Type} (res : FitInfo V)
    (initials commodity condition : String) (name : String) : Row V :=
  dictUpdate
    [("id", Cell.str initials),
     ("commodity", Cell.str commodity),
     ("condition", Cell.str condition),
     ("model", Cell.str name),
     ("log_loss", Cell.val res.log_loss),
     ("AUC", Cell.val res.AUC),
     ("WAIC", Cell.val res.WAIC),
     ("roc_auc", Cell.val res.roc_auc)]
    (res.mean_parameters.map (fun p => (p.1, Cell.val p.2)))

/-- The model_list dict of the notebook: Python dicts preserve
insertion order, so it is an ordered list of model names (the builder
functions live in the external models module). -/
def model_list : List String :=
  ["Exponential", "Hyperbolic", "ModifiedRachlin", "Hyperboloid"]

/-- The columns of the info dict, in construction order. -/
def baseCols : List String :=
  ["id", "commodity", "condition", "model", "log_loss", "AUC", "WAIC", "roc_auc"]

/-- The inner model loop for one file: for m, (model_name, _) in
enumerate(model_list.items()), fit the model and append the resulting
row to fit_data[m]. -/
def appendModelRows {V : Type} (fit : FitOracle V) (fname : String)
    (initials commodity condition : String)
    (fitData : List (List (Row V))) : List (List (Row V)) :=
  model_list.enum.foldl
    (fun fd mn =>
      fd.set mn.1
        (fd.getD mn.1 [] ++ [mkRow (fit mn.2 fname) initials commodity condition mn.2]))
    fitData

/-- One iteration of the batch loop body: parse the filename (an
unparseable filename raises, modelled as none) and append one row per
model to the accumulating fit_data lists. -/
def processFile {V : Type} (fit : FitOracle V)
    (fitData : List (List (Row V))) (fname : String) :
    Option (List (List (Row V))) :=
  match parse_filename fname with
  | none => none
  | some (initials, commodity, condition) =>
      some (appendModelRows fit fname initials commodity condition fitData)

/-- The batch loop over the file list, threading fit_data; an uncaught
exception on any file aborts the whole run. -/
def batchAux {V : Type} (fit : FitOracle V)
    (fitData : List (List (Row V))) : List String → Option (List (List (Row V)))
  | [] => some fitData
  | f :: rest =>
    match processFile fit fitData f with
    | none => none
    | some fd => batchAux fit fd rest

/-- The whole batch run, starting from fit_data = [[], [], [], []]. -/
def runBatch {V : Type} (fit : FitOracle V) (files : List String) :
    Option (List (List (Row V))) :=
  batchAux fit [[], [], [], []] files

/-- The rows one model's list accumulates over a file list, assuming
every filename up to that point parses. -/
def rowsFor {V : Type} (fit : FitOracle V) (name : String) :
    List String → List (Row V)
  | [] => []
  | f :: rest =>
    match parse_filename f with
    | none => []
    | some (initials, commodity, condition) =>
        mkRow (fit name f) initials commodity condition name :: rowsFor fit name rest

/-- Whether every filename in the list parses. -/
def allParse (files : List String) : Bool :=
  files.all (fun f => (parse_filename f).isSome)

/-- The output CSV filename for one model. -/
def csvName (name : String) : String :=
  "parameter_estimation_" ++ name ++ ".csv"

/-- The final export loop: one CSV per model, pairing model_list with
the concatenated fit_data tables in the same enumeration order. -/
def csvOutputs {V : Type} (fitData : List (List (Row V))) :
    List (String × List (Row V)) :=
  (model_list.zip fitData).map (fun p => (csvName p.1, p.2))

/-- Contents written to the output directory: the per-file diagnostic
figure (identified by the data determining it; rendering is external)
or a per-model CSV table. -/
inductive OutContent (V : Type) where
  | pdf : String → String → String → OutContent V
  | csv : List (Row V) → OutContent V
deriving DecidableEq

/-- The per-file PDF figures written by plt.savefig, in batch order;
the run stops writing at the first unparseable filename. -/
def pdfOutputs {V : Type} : List String → List (String × OutContent V)
  | [] => []
  | f :: rest =>
    match parse_filename f with
    | none => []
    | some (initials, commodity, condition) =>
        ("fits/" ++ initials ++ "_" ++ commodity ++ "_" ++ condition ++ ".pdf",
         OutContent.pdf initials commodity condition) :: pdfOutputs rest

/-- Every file written by one run of the notebook cell, with its
content: the PDFs as the loop goes, then the four CSVs if the loop
completed. -/
def runOutputs {V : Type} (fit : FitOracle V) (files : List String) :
    List (String × OutContent V) :=
  pdfOutputs files ++
    match runBatch fit files with
    | some fitData => (csvOutputs fitData).map (fun p => (p.1, OutContent.csv p.2))
    | none => []

/-- The output directory as a map from filename to content. -/
def Store (V : Type) := String → Option (OutContent V)

/-- Writing one file: plt.savefig and DataFrame.to_csv silently
overwrite an existing file of the same name. -/
def writeOut {V : Type} (s : Store V) (k : String) (v : OutContent V) :
    Store V :=
  fun q => if q = k then some v else s q

/-- Writing a list of files in order. -/
def writeAll {V : Type} (outs : List (String × OutContent V)) (s : Store V) :
    Store V :=
  outs.foldl (fun t p => writeOut t p.1 p.2) s

/-- The last value written for a key in a list of writes. -/
def findLast {V : Type} : List (String × OutContent V) → String → Option (OutContent V)
  | [], _ => none
  | p :: rest, k =>
    match findLast rest k with
    | some v => some v
    | none => if k = p.1 then some p.2 else none

/-- Reading a column of a row (first occurrence of the column name). -/
def getCol {V : Type} (col : String) (row : Row V) : Option (Cell V) :=
  (row.find? (fun p => p.1 == col)).map (fun p => p.2)

/-- Concrete fitting oracle used to instantiate theorems: every fit
returns zero metrics and a single parameter k. -/
def fitW : FitOracle Nat := fun _ _ => ⟨0, 0, 0, 0, [("k", 1)]⟩

/-- Concrete one-element file list used to instantiate theorems. -/
def filesW : List String := ["AB-food-hungry-20170101-1200.txt"]

/-- The fit_data tables produced by the concrete run. -/
def outW : List (List (Row Nat)) := (runBatch fitW filesW).getD []

/-- A second concrete file list, appended to the first in rerun
scenarios. -/
def files2W : List String := ["CD-money-sated-20170102-1300.txt"]

/-- The fit_data tables produced by the concrete two-file run. -/
def out2W : List (List (Row Nat)) := (runBatch fitW (filesW ++ files2W)).getD []

/-- The parameter-column map of the concrete oracle: every model
estimates the single parameter k. -/
def pkW : String → List String := fun _ => ["k"]

/-- Modelled from the spec: the models module holding the discount
functions is not in the analysed sources; the spec names the
Exponential family (Samuelson, 1937), the canonical form
exp(-k t) of a curve mapping delay t and rate k to a discount fraction
in the unit interval. -/
noncomputable def Exponential (k t : ℝ) : ℝ := Real.exp (-(k * t))

/-- Modelled from the spec: the Hyperbolic family (Mazur, 1987), the
canonical one-parameter form 1 / (1 + k t). -/
noncomputable def Hyperbolic (k t : ℝ) : ℝ := 1 / (1 + k * t)

/-- Modelled from the spec: the Modified Rachlin family (Vincent &
Stewart, 2019), the canonical two-parameter form 1 / (1 + (k t)^s). -/
noncomputable def ModifiedRachlin (k s t : ℝ) : ℝ := 1 / (1 + (k * t) ^ s)

/-- Modelled from the spec: the Hyperboloid family (Myerson & Green,
1995), the canonical two-parameter form 1 / (1 + k t)^s. -/
noncomputable def Hyperboloid (k s t : ℝ) : ℝ := 1 / (1 + k * t) ^ s

theorem splitAux_ne_nil (sep : Char) (s acc : List Char) :
    splitAux sep s acc ≠ [] := by
  induction s generalizing acc with
  | nil => simp [splitAux]
  | cons c rest ih =>
    simp only [splitAux]
    split
    · simp
    · exact ih _

/-- A basename that does not split into exactly five fields makes
parse_filename fail. -/
theorem parse_filename_eq_none (fname : String)
    (h : (splitOnSep '-' (basename fname)).length ≠ 5) :
    parse_filename fname = none := by
  unfold parse_filename
  rcases hs : splitOnSep '-' (basename fname) with _ | ⟨a, _ | ⟨b, _ | ⟨c, _ | ⟨d, _ | ⟨e, _ | ⟨f, l⟩⟩⟩⟩⟩⟩ <;>
    simp_all

/-- C1: for every path whose basename consists of exactly five
hyphen-separated fields, parse_filename returns the first three fields
(initials, commodity, condition) and discards the date and time fields. -/
theorem parse_filename_five_fields (fname a b c d e : String)
    (h : splitOnSep '-' (basename fname) = [a, b, c, d, e]) :
    parse_filename fname = some (a, b, c) := by
  unfold parse_filename
  rw [h]

/-- C1 witness: the spec's example filename
"AB-food-hungry-20170101-1200.txt" parses to ("AB", "food", "hungry"). -/
theorem parse_filename_five_fields_witness :
    splitOnSep '-' (basename "AB-food-hungry-20170101-1200.txt") =
      ["AB", "food", "hungry", "20170101", "1200.txt"] ∧
    parse_filename "AB-food-hungry-20170101-1200.txt" =
      some ("AB", "food", "hungry") :=
  ⟨by decide,
   parse_filename_five_fields "AB-food-hungry-20170101-1200.txt"
     "AB" "food" "hungry" "20170101" "1200.txt" (by decide)⟩

theorem processFile_some {V : Type} (fit : FitOracle V)
    (fd : List (List (Row V))) (f i co cond : String)
    (hp : parse_filename f = some (i, co, cond)) :
    processFile fit fd f = some (appendModelRows fit f i co cond fd) := by
  simp [processFile, hp]

theorem appendModelRows_four {V : Type} (fit : FitOracle V)
    (f i co cond : String) (a b c d : List (Row V)) :
    appendModelRows fit f i co cond [a, b, c, d] =
      [a ++ [mkRow (fit "Exponential" f) i co cond "Exponential"],
       b ++ [mkRow (fit "Hyperbolic" f) i co cond "Hyperbolic"],
       c ++ [mkRow (fit "ModifiedRachlin" f) i co cond "ModifiedRachlin"],
       d ++ [mkRow (fit "Hyperboloid" f) i co cond "Hyperboloid"]] := rfl

theorem allParse_cons (f : String) (rest : List String) :
    allParse (f :: rest) = ((parse_filename f).isSome && allParse rest) := by
  simp [allParse]

theorem rowsFor_cons {V : Type} (fit : FitOracle V) (name f : String)
    (rest : List String) (i co cond : String)
    (hp : parse_filename f = some (i, co, cond)) :
    rowsFor fit name (f :: rest) =
      mkRow (fit name f) i co cond name :: rowsFor fit name rest := by
  simp [rowsFor, hp]

/-- Structure of the batch loop: starting from any four accumulated
lists, a run appends per model exactly the rows of the parsed prefix,
succeeding iff every filename parses. -/
theorem batchAux_four {V : Type} (fit : FitOracle V) (files : List String) :
    ∀ a b c d : List (Row V),
    batchAux fit [a, b, c, d] files =
      if allParse files then
        some [a ++ rowsFor fit "Exponential" files,
              b ++ rowsFor fit "Hyperbolic" files,
              c ++ rowsFor fit "ModifiedRachlin" files,
              d ++ rowsFor fit "Hyperboloid" files]
      else none := by
  induction files with
  | nil => intro a b c d; simp [batchAux, allParse, rowsFor]
  | cons f rest ih =>
    intro a b c d
    cases hp : parse_filename f with
    | none =>
      rw [allParse_cons, hp]
      simp [batchAux, processFile, hp]
    | some t =>
      obtain ⟨i, co, cond⟩ := t
      simp only [batchAux, processFile_some fit [a, b, c, d] f i co cond hp,
        appendModelRows_four, ih]
      rw [allParse_cons, hp]
      rw [rowsFor_cons fit "Exponential" f rest i co cond hp,
        rowsFor_cons fit "Hyperbolic" f rest i co cond hp,
        rowsFor_cons fit "ModifiedRachlin" f rest i co cond hp,
        rowsFor_cons fit "Hyperboloid" f rest i co cond hp]
      cases hall : allParse rest <;> simp [hall, List.append_assoc]

theorem runBatch_eq {V : Type} (fit : FitOracle V) (files : List String) :
    runBatch fit files =
      if allParse files then
        some [rowsFor fit "Exponential" files,
              rowsFor fit "Hyperbolic" files,
              rowsFor fit "ModifiedRachlin" files,
              rowsFor fit "Hyperboloid" files]
      else none := by
  simpa [runBatch] using batchAux_four fit files [] [] [] []

theorem allParse_of_runBatch_some {V : Type} (fit : FitOracle V)
    (files : List String) (out : List (List (Row V)))
    (h : runBatch fit files = some out) : allParse files = true := by
  rw [runBatch_eq] at h
  cases hall : allParse files
  · rw [hall] at h; simp at h
  · rfl

theorem runBatch_some_eq {V : Type} (fit : FitOracle V)
    (files : List String) (out : List (List (Row V)))
    (h : runBatch fit files = some out) :
    out = [rowsFor fit "Exponential" files,
           rowsFor fit "Hyperbolic" files,
           rowsFor fit "ModifiedRachlin" files,
           rowsFor fit "Hyperboloid" files] := by
  have hall := allParse_of_runBatch_some fit files out h
  rw [runBatch_eq, hall] at h
  simp at h
  exact h.symm

theorem rowsFor_length {V : Type} (fit : FitOracle V) (name : String) :
    ∀ files : List String, allParse files = true →
    (rowsFor fit name files).length = files.length := by
  intro files
  induction files with
  | nil => intro _; simp [rowsFor]
  | cons f rest ih =>
    intro h
    rw [allParse_cons, Bool.and_eq_true] at h
    obtain ⟨hf, hrest⟩ := h
    obtain ⟨t, hp⟩ := Option.isSome_iff_exists.mp hf
    obtain ⟨i, co, cond⟩ := t
    simp [rowsFor, hp, ih hrest]

theorem allParse_append_bad (pre post : List String) (f : String)
    (hp : parse_filename f = none) :
    allParse (pre ++ f :: post) = false := by
  simp [allParse, hp]

theorem pdfOutputs_append_bad {V : Type} (pre post : List String) (f : String)
    (hp : parse_filename f = none) :
    pdfOutputs (V := V) (pre ++ f :: post) = pdfOutputs (V := V) pre := by
  induction pre with
  | nil => simp [pdfOutputs, hp]
  | cons g rest ih =>
    cases hg : parse_filename g with
    | none =>
      rw [List.cons_append]
      simp [pdfOutputs, hg]
    | some t =>
      obtain ⟨i, co, cond⟩ := t
      rw [List.cons_append]
      simp only [pdfOutputs, hg, List.append_eq]
      rw [ih]

/-- C2: a successful batch run over n input files produces exactly four
per-model CSV tables, each containing exactly n rows. -/
theorem csv_row_counts {V : Type} (fit : FitOracle V) (files : List String)
    (out : List (List (Row V))) (h : runBatch fit files = some out) :
    (csvOutputs out).length = 4 ∧
    ∀ p ∈ csvOutputs out, p.2.length = files.length := by
  have hall := allParse_of_runBatch_some fit files out h
  have hout := runBatch_some_eq fit files out h
  subst hout
  refine ⟨rfl, ?_⟩
  intro p hp
  simp [csvOutputs, model_list] at hp
  rcases hp with h1 | h1 | h1 | h1 <;> subst h1 <;>
    exact rowsFor_length fit _ files hall

/-- C2 witness: a concrete one-file run yields four tables of one row. -/
theorem csv_row_counts_witness :
    runBatch fitW filesW = some outW ∧
    ((csvOutputs outW).length = 4 ∧
     ∀ p ∈ csvOutputs outW, p.2.length = filesW.length) :=
  ⟨rfl, csv_row_counts fitW filesW outW rfl⟩

/-- C4: a filename whose basename does not split on hyphens into exactly
five fields makes the parser fail, the whole batch run abort (no CSV is
written), and the run's outputs are exactly those of the files before
it: no later file is processed. -/
theorem malformed_filename_halts_batch {V : Type} (fit : FitOracle V)
    (pre post : List String) (f : String)
    (h : (splitOnSep '-' (basename f)).length ≠ 5) :
    parse_filename f = none ∧
    runBatch fit (pre ++ f :: post) = none ∧
    runOutputs fit (pre ++ f :: post) = pdfOutputs pre := by
  have hp := parse_filename_eq_none f h
  have hb : runBatch (V := V) fit (pre ++ f :: post) = none := by
    rw [runBatch_eq, allParse_append_bad pre post f hp]
    simp
  exact ⟨hp, hb, by simp [runOutputs, hb, pdfOutputs_append_bad pre post f hp]⟩

/-- C4 witness: the filename "bad.txt" aborts a one-file batch. -/
theorem malformed_filename_halts_batch_witness :
    (splitOnSep '-' (basename "bad.txt")).length ≠ 5 ∧
    (parse_filename "bad.txt" = none ∧
     runBatch fitW ([] ++ "bad.txt" :: []) = none ∧
     runOutputs fitW ([] ++ "bad.txt" :: []) = pdfOutputs []) :=
  ⟨by decide, malformed_filename_halts_batch fitW [] [] "bad.txt" (by decide)⟩

/-- C9: batch processing is sequential, one file after another, the only
state threaded between iterations being the accumulating fit_data
tables: running the loop on a concatenation of two file lists equals
running it on the first and continuing from the resulting tables. -/
theorem batch_sequential_fold {V : Type} (fit : FitOracle V)
    (acc : List (List (Row V))) (fs1 fs2 : List String) :
    batchAux fit acc (fs1 ++ fs2) =
      Option.bind (batchAux fit acc fs1) (fun fd => batchAux fit fd fs2) := by
  induction fs1 generalizing acc with
  | nil => simp [batchAux]
  | cons f rest ih =>
    simp only [List.cons_append, batchAux]
    cases processFile fit acc f with
    | none => simp
    | some fd => simp [ih]

theorem rowsFor_append {V : Type} (fit : FitOracle V) (name : String)
    (fs1 fs2 : List String) (h : allParse fs1 = true) :
    rowsFor fit name (fs1 ++ fs2) =
      rowsFor fit name fs1 ++ rowsFor fit name fs2 := by
  induction fs1 with
  | nil => simp [rowsFor]
  | cons f rest ih =>
    rw [allParse_cons, Bool.and_eq_true] at h
    obtain ⟨hf, hrest⟩ := h
    obtain ⟨t, hp⟩ := Option.isSome_iff_exists.mp hf
    obtain ⟨i, co, cond⟩ := t
    rw [List.cons_append,
      rowsFor_cons fit name f (rest ++ fs2) i co cond hp,
      rowsFor_cons fit name f rest i co cond hp,
      List.cons_append, ih hrest]

/-- C8: the batch accumulation is append-only: extending the file list
leaves every previously produced fit row in place unchanged, and the
final concatenation and export step emits exactly the accumulated rows,
modifying none of them. -/
theorem appended_rows_never_mutated {V : Type} (fit : FitOracle V)
    (files1 files2 : List String) (out1 out2 : List (List (Row V)))
    (h1 : runBatch fit files1 = some out1)
    (h2 : runBatch fit (files1 ++ files2) = some out2) :
    (∀ m, ∃ t, out2.getD m [] = out1.getD m [] ++ t) ∧
    (csvOutputs out2).map (fun p => p.2) = out2 := by
  have hall1 := allParse_of_runBatch_some fit files1 out1 h1
  have e1 := runBatch_some_eq fit files1 out1 h1
  have e2 := runBatch_some_eq fit (files1 ++ files2) out2 h2
  subst e1
  subst e2
  refine ⟨?_, by simp [csvOutputs, model_list]⟩
  intro m
  match m with
  | 0 => exact ⟨rowsFor fit "Exponential" files2, by
      simp [rowsFor_append fit "Exponential" files1 files2 hall1]⟩
  | 1 => exact ⟨rowsFor fit "Hyperbolic" files2, by
      simp [rowsFor_append fit "Hyperbolic" files1 files2 hall1]⟩
  | 2 => exact ⟨rowsFor fit "ModifiedRachlin" files2, by
      simp [rowsFor_append fit "ModifiedRachlin" files1 files2 hall1]⟩
  | 3 => exact ⟨rowsFor fit "Hyperboloid" files2, by
      simp [rowsFor_append fit "Hyperboloid" files1 files2 hall1]⟩
  | (n + 4) => exact ⟨[], by simp⟩

/-- C8 witness: a concrete run extended by a second file keeps the first
run's rows as unchanged prefixes, and the export emits the tables as
accumulated. -/
theorem appended_rows_never_mutated_witness :
    runBatch fitW filesW = some outW ∧
    runBatch fitW (filesW ++ files2W) = some out2W ∧
    ((∀ m, ∃ t, out2W.getD m [] = outW.getD m [] ++ t) ∧
     (csvOutputs out2W).map (fun p => p.2) = out2W) :=
  ⟨rfl, rfl, appended_rows_never_mutated fitW filesW files2W outW out2W rfl rfl⟩

theorem getCol_model_mkRow {V : Type} (res : FitInfo V)
    (i co cond name : String)
    (hm : "model" ∉ res.mean_parameters.map Prod.fst) :
    getCol "model" (mkRow res i co cond name) = some (Cell.str name) := by
  have hfind : res.mean_parameters.find? (fun p => p.1 == "model") = none := by
    rw [List.find?_eq_none]
    intro x hx
    simp only [beq_iff_eq]
    intro heq
    exact hm (heq ▸ List.mem_map_of_mem Prod.fst hx)
  simp [getCol, mkRow, dictUpdate, List.find?_map, Function.comp_def, hfind]

theorem rowsFor_model {V : Type} (fit : FitOracle V) (nm : String)
    (hm : ∀ f, "model" ∉ ((fit nm f).mean_parameters.map Prod.fst)) :
    ∀ (files : List String), ∀ row ∈ rowsFor fit nm files,
    getCol "model" row = some (Cell.str nm) := by
  intro files
  induction files with
  | nil => simp [rowsFor]
  | cons f rest ih =>
    intro row hrow
    cases hp : parse_filename f with
    | none => simp [rowsFor, hp] at hrow
    | some t =>
      obtain ⟨i, co, cond⟩ := t
      rw [rowsFor_cons fit nm f rest i co cond hp] at hrow
      rcases List.mem_cons.mp hrow with h1 | h1
      · subst h1
        exact getCol_model_mkRow (fit nm f) i co cond nm (hm f)
      · exact ih row h1

/-- C10: each exported CSV contains only rows whose model column equals
the model name its filename carries: the fitting loop and the export
loop enumerate the same model_list in the same insertion order, so the
per-model index used to file a row matches the one used to export it. -/
theorem model_column_matches_csv {V : Type} (fit : FitOracle V)
    (files : List String) (out : List (List (Row V)))
    (h : runBatch fit files = some out)
    (hm : ∀ name f, "model" ∉ ((fit name f).mean_parameters.map Prod.fst)) :
    ∀ name ∈ model_list, ∀ table, (csvName name, table) ∈ csvOutputs out →
    ∀ row ∈ table, getCol "model" row = some (Cell.str name) := by
  have hout := runBatch_some_eq fit files out h
  subst hout
  intro name hname table htab row hrow
  simp only [model_list, List.mem_cons, List.not_mem_nil, or_false] at hname
  simp only [csvOutputs, model_list, List.zip, List.zipWith, List.map,
    List.mem_cons, List.not_mem_nil, or_false, Prod.mk.injEq] at htab
  rcases hname with rfl | rfl | rfl | rfl <;>
    rcases htab with ⟨he, rfl⟩ | ⟨he, rfl⟩ | ⟨he, rfl⟩ | ⟨he, rfl⟩ <;>
    first
      | exact absurd he (by decide)
      | exact rowsFor_model fit _ (fun f => hm _ f) files row hrow

/-- C10 witness: in the concrete run, every row of every exported CSV
carries the model name belonging to that CSV. -/
theorem model_column_matches_csv_witness :
    runBatch fitW filesW = some outW ∧
    (∀ name f, "model" ∉ ((fitW name f).mean_parameters.map Prod.fst)) ∧
    (∀ name ∈ model_list, ∀ table, (csvName name, table) ∈ csvOutputs outW →
     ∀ row ∈ table, getCol "model" row = some (Cell.str name)) := by
  refine ⟨rfl, ?_, ?_⟩
  · intro name f
    show ("model" : String) ∉ ["k"]
    decide
  · exact model_column_matches_csv fitW filesW outW rfl
      (by intro name f; show ("model" : String) ∉ ["k"]; decide)

theorem dictUpdate_keys {V : Type} (base upd : List (String × Cell V))
    (hd : ∀ k ∈ upd.map Prod.fst, k ∉ base.map Prod.fst) :
    (dictUpdate base upd).map Prod.fst =
      base.map Prod.fst ++ upd.map Prod.fst := by
  unfold dictUpdate
  rw [List.map_append]
  congr 1
  · rw [List.map_map]
    rfl
  · have hkeep : upd.filter (fun q => base.all (fun p => p.1 != q.1)) = upd := by
      rw [List.filter_eq_self]
      intro q hq
      rw [List.all_eq_true]
      intro p hp
      simp only [bne_iff_ne, ne_eq, decide_eq_true_eq]
      intro heq
      exact hd q.1 (List.mem_map_of_mem Prod.fst hq)
        (heq ▸ List.mem_map_of_mem Prod.fst hp)
    rw [hkeep]

theorem mkRow_cols {V : Type} (res : FitInfo V) (i co cond name : String)
    (hd : ∀ k ∈ res.mean_parameters.map Prod.fst, k ∉ baseCols) :
    (mkRow res i co cond name).map Prod.fst =
      baseCols ++ res.mean_parameters.map Prod.fst := by
  unfold mkRow
  rw [dictUpdate_keys]
  · rw [List.map_map]
    rfl
  · intro k hk
    rw [List.map_map] at hk
    exact hd k hk

theorem rowsFor_cols {V : Type} (fit : FitOracle V) (nm : String)
    (pk : String → List String)
    (hd : ∀ f k, k ∈ (fit nm f).mean_parameters.map Prod.fst → k ∉ baseCols)
    (hpk : ∀ f, (fit nm f).mean_parameters.map Prod.fst = pk nm) :
    ∀ (files : List String), ∀ row ∈ rowsFor fit nm files,
    row.map Prod.fst = baseCols ++ pk nm := by
  intro files
  induction files with
  | nil => simp [rowsFor]
  | cons f rest ih =>
    intro row hrow
    cases hp : parse_filename f with
    | none => simp [rowsFor, hp] at hrow
    | some t =>
      obtain ⟨i, co, cond⟩ := t
      rw [rowsFor_cons fit nm f rest i co cond hp] at hrow
      rcases List.mem_cons.mp hrow with h1 | h1
      · subst h1
        rw [mkRow_cols (fit nm f) i co cond nm (hd f), hpk f]
      · exact ih row h1

/-- C3: a successful batch run exports exactly one CSV per discount
function, four in all, named parameter_estimation followed by the model
name, and every row of a model's CSV carries the columns id, commodity,
condition, model, log_loss, AUC, WAIC, roc_auc followed by that model's
parameter columns. -/
theorem csv_files_and_columns {V : Type} (fit : FitOracle V)
    (files : List String) (out : List (List (Row V)))
    (pk : String → List String)
    (h : runBatch fit files = some out)
    (hd : ∀ name f k, k ∈ (fit name f).mean_parameters.map Prod.fst →
      k ∉ baseCols)
    (hpk : ∀ name f, (fit name f).mean_parameters.map Prod.fst = pk name) :
    (csvOutputs out).map Prod.fst =
      ["parameter_estimation_Exponential.csv",
       "parameter_estimation_Hyperbolic.csv",
       "parameter_estimation_ModifiedRachlin.csv",
       "parameter_estimation_Hyperboloid.csv"] ∧
    ∀ p ∈ model_list.zip out, ∀ row ∈ p.2,
      row.map Prod.fst = baseCols ++ pk p.1 := by
  have hout := runBatch_some_eq fit files out h
  subst hout
  refine ⟨rfl, ?_⟩
  intro p hp
  simp only [model_list, List.zip, List.zipWith, List.mem_cons,
    List.not_mem_nil, or_false] at hp
  rcases hp with rfl | rfl | rfl | rfl <;>
    exact rowsFor_cols fit _ pk (fun f k hk => hd _ f k hk) (fun f => hpk _ f) files

/-- C3 witness: the concrete run exports the four expected CSV names
and each row has the base columns followed by the parameter column k. -/
theorem csv_files_and_columns_witness :
    runBatch fitW filesW = some outW ∧
    ((csvOutputs outW).map Prod.fst =
      ["parameter_estimation_Exponential.csv",
       "parameter_estimation_Hyperbolic.csv",
       "parameter_estimation_ModifiedRachlin.csv",
       "parameter_estimation_Hyperboloid.csv"] ∧
     ∀ p ∈ model_list.zip outW, ∀ row ∈ p.2,
       row.map Prod.fst = baseCols ++ pkW p.1) := by
  refine ⟨rfl, ?_⟩
  exact csv_files_and_columns fitW filesW outW pkW rfl
    (by
      intro name f k hk
      have hx : k ∈ ["k"] := hk
      simp at hx
      subst hx
      decide)
    (fun _ _ => rfl)

theorem writeAll_apply {V : Type} (outs : List (String × OutContent V)) :
    ∀ (s : Store V) (k : String),
    writeAll outs s k =
      match findLast outs k with
      | some v => some v
      | none => s k := by
  induction outs with
  | nil => intro s k; rfl
  | cons p rest ih =>
    intro s k
    have hstep : writeAll (p :: rest) s = writeAll rest (writeOut s p.1 p.2) := rfl
    rw [hstep, ih]
    cases hf : findLast rest k with
    | some v => simp [findLast, hf]
    | none =>
      simp only [findLast, hf, writeOut]
      by_cases hk : k = p.1 <;> simp [hk]

/-- C7: the files a run writes are a function of the input files alone
and each write overwrites any file of the same name, so running the
batch twice in a row leaves the output directory exactly as one run
does. -/
theorem rerun_overwrites_idempotent {V : Type} (fit : FitOracle V)
    (files : List String) (s : Store V) :
    writeAll (runOutputs fit files) (writeAll (runOutputs fit files) s) =
      writeAll (runOutputs fit files) s := by
  funext k
  rw [writeAll_apply, writeAll_apply]
  cases hf : findLast (runOutputs fit files) k <;> simp [hf]

/-- C5: for positive parameters, each of the four discount functions
takes values in the unit interval at every (nonnegative) delay and is
non-increasing in the delay. -/
theorem discount_functions_bounded_and_nonincreasing
    (k s t t1 t2 : ℝ) (hk : 0 < k) (hs : 0 < s)
    (ht : 0 ≤ t) (ht1 : 0 ≤ t1) (h12 : t1 ≤ t2) :
    (0 ≤ Exponential k t ∧ Exponential k t ≤ 1 ∧
      Exponential k t2 ≤ Exponential k t1) ∧
    (0 ≤ Hyperbolic k t ∧ Hyperbolic k t ≤ 1 ∧
      Hyperbolic k t2 ≤ Hyperbolic k t1) ∧
    (0 ≤ ModifiedRachlin k s t ∧ ModifiedRachlin k s t ≤ 1 ∧
      ModifiedRachlin k s t2 ≤ ModifiedRachlin k s t1) ∧
    (0 ≤ Hyperboloid k s t ∧ Hyperboloid k s t ≤ 1 ∧
      Hyperboloid k s t2 ≤ Hyperboloid k s t1) := by
  have hkt : 0 ≤ k * t := mul_nonneg hk.le ht
  have hkt1 : 0 ≤ k * t1 := mul_nonneg hk.le ht1
  have hkt12 : k * t1 ≤ k * t2 := mul_le_mul_of_nonneg_left h12 hk.le
  have hkt2 : 0 ≤ k * t2 := le_trans hkt1 hkt12
  refine ⟨⟨?_, ?_, ?_⟩, ⟨?_, ?_, ?_⟩, ⟨?_, ?_, ?_⟩, ⟨?_, ?_, ?_⟩⟩
  · exact (Real.exp_pos _).le
  · exact Real.exp_le_one_iff.mpr (by linarith)
  · exact Real.exp_le_exp.mpr (by linarith)
  · exact le_of_lt (div_pos one_pos (by linarith))
  · exact (div_le_one (by linarith)).mpr (by linarith)
  · exact one_div_le_one_div_of_le (by linarith) (by linarith)
  · have hr : 0 ≤ (k * t) ^ s := Real.rpow_nonneg hkt s
    exact le_of_lt (div_pos one_pos (by linarith))
  · have hr : 0 ≤ (k * t) ^ s := Real.rpow_nonneg hkt s
    exact (div_le_one (by linarith)).mpr (by linarith)
  · have hr1 : 0 ≤ (k * t1) ^ s := Real.rpow_nonneg hkt1 s
    have hrm : (k * t1) ^ s ≤ (k * t2) ^ s :=
      Real.rpow_le_rpow hkt1 hkt12 hs.le
    exact one_div_le_one_div_of_le (by linarith) (by linarith)
  · have hb : 0 < (1 + k * t) ^ s :=
      Real.rpow_pos_of_pos (by linarith) s
    exact le_of_lt (div_pos one_pos hb)
  · have hb : 0 < (1 + k * t) ^ s :=
      Real.rpow_pos_of_pos (by linarith) s
    have hone : (1 : ℝ) ≤ (1 + k * t) ^ s := by
      have := Real.rpow_le_rpow zero_le_one (by linarith : (1 : ℝ) ≤ 1 + k * t) hs.le
      rwa [Real.one_rpow] at this
    exact (div_le_one hb).mpr hone
  · have hb1 : 0 < (1 + k * t1) ^ s :=
      Real.rpow_pos_of_pos (by linarith) s
    have hrm : (1 + k * t1) ^ s ≤ (1 + k * t2) ^ s :=
      Real.rpow_le_rpow (by linarith) (by linarith) hs.le
    exact one_div_le_one_div_of_le hb1 hrm

/-- C5 witness: the bounds and monotonicity at k = 1, s = 1, delays 0
and 1. -/
theorem discount_functions_bounded_and_nonincreasing_witness :
    (0 : ℝ) < 1 ∧ (0 : ℝ) ≤ 0 ∧ (0 : ℝ) ≤ 1 ∧
    ((0 ≤ Exponential 1 0 ∧ Exponential 1 0 ≤ 1 ∧
       Exponential 1 1 ≤ Exponential 1 0) ∧
     (0 ≤ Hyperbolic 1 0 ∧ Hyperbolic 1 0 ≤ 1 ∧
       Hyperbolic 1 1 ≤ Hyperbolic 1 0) ∧
     (0 ≤ ModifiedRachlin 1 1 0 ∧ ModifiedRachlin 1 1 0 ≤ 1 ∧
       ModifiedRachlin 1 1 1 ≤ ModifiedRachlin 1 1 0) ∧
     (0 ≤ Hyperboloid 1 1 0 ∧ Hyperboloid 1 1 0 ≤ 1 ∧
       Hyperboloid 1 1 1 ≤ Hyperboloid 1 1 0)) :=
  ⟨one_pos, le_refl 0, zero_le_one,
   discount_functions_bounded_and_nonincreasing 1 1 0 0 1
     one_pos one_pos (le_refl 0) (le_refl 0) zero_le_one⟩

end Skrynka
